import Mathlib

/-!
Verification of the hierarchical-classification evaluation metrics module
(`sklearn_hierarchical_classification/metrics.py`).

The embedding models:
- the class-hierarchy graph as a list of nodes plus a list of parent-to-child
  edges (`DiGraph`), with the sentinel `ROOT` node a distinct constructor
  (modelled from the spec: the Root is "a reserved sentinel value distinct
  from any real category id" and "has no column" in the label matrix);
- `networkx.DiGraph.reverse` as edge swapping (in networkx 2.x,
  `reverse(copy=False)` is a non-mutating view, so the original graph object is
  never modified);
- `networkx.all_pairs_shortest_path_length` / `single_source_shortest_path_length`
  as a level-by-level breadth-first search returning the visited nodes in
  discovery order (dict keys are in insertion order, i.e. nondecreasing
  distance);
- label matrices as lists of rows of natural numbers, with numpy fancy-index
  assignment `y_[meshgrid(ix_rows, ancestors)] = 1` as marking the cartesian
  product of rows and columns;
- fallible operations (indexing a column that does not exist, in particular the
  Root sentinel appearing among the ancestor columns, and Python
  `ZeroDivisionError` on a zero denominator) as `Option`, with `none` meaning
  the call raises instead of returning.
-/

namespace HC

/-- Graph nodes: the sentinel ROOT (modelled from the spec: a reserved sentinel
value distinct from any real category id, imported by the code from the
repository's `constants` module which is outside `src/`), or an integer class
id that doubles as a column index of the label matrix. -/
inductive Node where
  | ROOT : Node
  | id : Nat → Node
deriving DecidableEq, Repr

/-- A directed graph as in `networkx.DiGraph`: node list (in insertion order,
the order `graph.nodes` iterates) and edge list (parent to child). -/
structure DiGraph where
  nodes : List Node
  edges : List (Node × Node)
deriving DecidableEq, Repr

/-- The networkx `graph.reverse()`: same nodes, every edge flipped. -/
def reverse (g : DiGraph) : DiGraph :=
  ⟨g.nodes, g.edges.map (fun e => (e.2, e.1))⟩

/-- Successors of `x` (adjacency used by the shortest-path traversal), in edge
insertion order as networkx adjacency dicts iterate. -/
def adjOf (g : DiGraph) (x : Node) : List Node :=
  (g.edges.filter (fun e => decide (e.1 = x))).map (fun e => e.2)

/-- Parents of `x` in `g` (predecessors), in edge insertion order. -/
def parentsList (g : DiGraph) (x : Node) : List Node :=
  (g.edges.filter (fun e => decide (e.2 = x))).map (fun e => e.1)

/-- One edge step of `g` as a relation (parent to child). -/
def Step (g : DiGraph) (a b : Node) : Prop := (a, b) ∈ g.edges

/-- All edge endpoints are declared nodes (networkx maintains this). -/
def edgeClosed (g : DiGraph) : Prop :=
  ∀ e ∈ g.edges, e.1 ∈ g.nodes ∧ e.2 ∈ g.nodes

instance (g : DiGraph) : Decidable (edgeClosed g) := by
  unfold edgeClosed; infer_instance

/-- The nodes of `frontier` not yet in `seen`, first occurrences only: the
`found` list of one BFS level in networkx `_single_shortest_path_length`. -/
def newNodes : List Node → List Node → List Node
  | _, [] => []
  | seen, x :: xs =>
    if x ∈ seen then newNodes seen xs else x :: newNodes (x :: seen) xs

/-- Level-by-level BFS: `seen` accumulates nodes in discovery order (the
insertion order of the `seen` dict of networkx, i.e. nondecreasing distance
from the source). `fuel` bounds the number of levels. -/
def bfsLoop (G : DiGraph) : Nat → List Node → List Node → List Node
  | 0, _, seen => seen
  | fuel + 1, frontier, seen =>
    match newNodes seen frontier with
    | [] => seen
    | x :: xs => bfsLoop G fuel ((x :: xs).flatMap (adjOf G)) (seen ++ x :: xs)

/-- The keys of `single_source_shortest_path_length(G, s)` in iteration
order: all nodes reachable from `s`, nondecreasing distance first. -/
def bfsOrder (G : DiGraph) (s : Node) : List Node :=
  bfsLoop G (G.nodes.length + 1) [s] []

/-- A label matrix: rows are samples, each row a list of 0/1 entries indexed
by class id. -/
abbrev Mat := List (List Nat)

/-- Number of columns (width of the first row; matrices are rectangular). -/
def nCols (m : Mat) : Nat := (m.getD 0 []).length

/-- Entry of the matrix at row `i`, column `c` (0 outside the matrix). -/
def getEntry (m : Mat) (i c : Nat) : Nat := (m.getD i []).getD c 0

/-- Set position `c` of a row to 1 (no-op past the end of the row). -/
def setRow : List Nat → Nat → List Nat
  | [], _ => []
  | _ :: xs, 0 => 1 :: xs
  | x :: xs, c + 1 => x :: setRow xs c

/-- Set entry `(i, c)` of the matrix to 1. -/
def setEntry : Mat → Nat → Nat → Mat
  | [], _, _ => []
  | r :: rs, 0, c => setRow r c :: rs
  | r :: rs, i + 1, c => r :: setEntry rs i c

/-- Set entries `(i, c)` to 1 for every `c` in `cols`. -/
def markRow : Mat → Nat → List Nat → Mat
  | m, _, [] => m
  | m, i, c :: cs => markRow (setEntry m i c) i cs

/-- The numpy assignment `y_[tuple(np.meshgrid(ix_rows, ancestors))] = 1`:
set every entry in the cartesian product `rows × cols` to 1. -/
def markMat : Mat → List Nat → List Nat → Mat
  | m, [], _ => m
  | m, i :: is, cols => markMat (markRow m i cols) is cols

/-- The numpy `np.where(y[:, c] > 0)[0]`: row indices with a positive in column `c`. -/
def rowsWhere (m : Mat) (c : Nat) : List Nat :=
  (List.range m.length).filter (fun i => decide (0 < getEntry m i c))

/-- The column index a node stands for (`ROOT` has no column; the default 0 is
never used on `ROOT` in any well-defined execution path). -/
def idOfD : Node → Nat
  | Node.ROOT => 0
  | Node.id n => n

/-- The per-target ancestor enumeration of `fill_ancestors`:
`list(distances.keys())[:-1]`, the BFS discovery order over the reversed graph
with its last element stripped. -/
def ancList (g : DiGraph) (t : Node) : List Node :=
  (bfsOrder (reverse g) t).dropLast

/-- The column indices of the per-target ancestor list. -/
def ancIds (g : DiGraph) (t : Node) : List Nat :=
  (ancList g t).map idOfD

/-- The loop body of `fill_ancestors` over the remaining targets.

Returns `(result?, final)` where `result?` is `none` when the body raises
(reading a column that does not exist, or fancy-indexing with an ancestor list
that mentions the ROOT sentinel — which has no column — or an out-of-range
column id; modelled from the spec: a referenced node id with no corresponding
column "fails immediately ... with an out-of-range error"), and `final` is the
state of the matrix being written at that point (reached also on error, since
with `copy=False` the caller's matrix keeps the partial writes).

With `copy = true` the rows are read from the untouched input `orig`
(`ix_rows = np.where(y[:, target] > 0)` reads `y`, and `y_` is a fresh copy);
with `copy = false`, `y_` *is* `y`, so reads see earlier writes. -/
def fillFold (g : DiGraph) (copy : Bool) (orig : Mat) :
    List Node → Mat → Option Mat × Mat
  | [], cur => (some cur, cur)
  | t :: ts, cur =>
    if t = Node.ROOT then fillFold g copy orig ts cur
    else
      let readM := if copy then orig else cur
      if idOfD t < nCols readM then
        let rows := rowsWhere readM (idOfD t)
        let anc := ancList g t
        if Node.ROOT ∈ anc then (none, cur)
        else if anc.any (fun a => decide (nCols cur ≤ idOfD a)) then (none, cur)
        else fillFold g copy orig ts (markMat cur rows (anc.map idOfD))
      else (none, cur)

/-- The call `fill_ancestors(y, graph, copy)` together with its frame effects:
`(result?, caller's matrix after the call, graph after the call)`.

The traversal uses `reverse g` (via `ancList`); in networkx 2.x
`graph.reverse(copy=False)` is a read-only view and the trailing
`graph.reverse(copy=False)` statement is a discarded view, so the caller's
graph is returned as it was. With `copy=True` the writes go to a fresh copy
and the caller's matrix stays `y`; with `copy=False` the caller's matrix is
the written matrix, including partial writes if the call raises. -/
def fill_ancestors_full (y : Mat) (g : DiGraph) (copy : Bool) :
    Option Mat × Mat × DiGraph :=
  let r := fillFold g copy y g.nodes y
  (r.1, (if copy then y else r.2), g)

/-- The function `fill_ancestors(y, graph, copy)`: the returned matrix, `none` if the call
raises. The source defaults `copy=True`; all metric functions call it with the
default. -/
def fill_ancestors (y : Mat) (g : DiGraph) (copy : Bool) : Option Mat :=
  (fill_ancestors_full y g copy).1

/-- The count `np.count_nonzero`. -/
def countNonzero (m : Mat) : Nat :=
  (m.map (fun r => (r.filter (fun v => decide (v ≠ 0))).length)).sum

/-- The count `len(np.where((a != 0) & (b != 0))[0])`: the number of positions nonzero
in both matrices (same shape). -/
def countBoth (a b : Mat) : Nat :=
  ((a.zip b).map
    (fun p => ((p.1.zip p.2).filter
      (fun q => decide (q.1 ≠ 0) && decide (q.2 ≠ 0))).length)).sum

/-- Hierarchical precision `h_precision_score`. Python integer division by zero raises
`ZeroDivisionError`; an exception from `fill_ancestors` propagates too — both
are `none`. Scores are rationals (the Python floats here are exact quotients
of machine integers small enough to be exact). -/
def h_precision_score (y_true y_pred : Mat) (g : DiGraph) : Option ℚ :=
  match fill_ancestors y_true g true, fill_ancestors y_pred g true with
  | some t_, some p_ =>
    if countNonzero p_ = 0 then none
    else some ((countBoth t_ p_ : ℚ) / (countNonzero p_ : ℚ))
  | _, _ => none

/-- Hierarchical recall `h_recall_score`: same numerator, denominator from the filled true
matrix. -/
def h_recall_score (y_true y_pred : Mat) (g : DiGraph) : Option ℚ :=
  match fill_ancestors y_true g true, fill_ancestors y_pred g true with
  | some t_, some p_ =>
    if countNonzero t_ = 0 then none
    else some ((countBoth t_ p_ : ℚ) / (countNonzero t_ : ℚ))
  | _, _ => none

/-- Hierarchical F-beta `h_fbeta_score`: `(1 + beta**2) * hP * hR / (beta**2 * hP + hR)`, with a
Python float division by zero raising (hence `none`). -/
def h_fbeta_score (y_true y_pred : Mat) (g : DiGraph) (beta : ℚ) : Option ℚ :=
  match h_precision_score y_true y_pred g, h_recall_score y_true y_pred g with
  | some hP, some hR =>
    if beta ^ 2 * hP + hR = 0 then none
    else some ((1 + beta ^ 2) * hP * hR / (beta ^ 2 * hP + hR))
  | _, _ => none

/-- The chain of nodes from `n` upward to the ROOT following the unique
parent at each step (the spec's Ancestor Set "reachable by following parent
edges upward", plus the node itself and the terminal ROOT). `none` when a node
on the way has zero or several parents or the fuel runs out. -/
def upChain (g : DiGraph) : Nat → Node → Option (List Node)
  | 0, _ => none
  | fuel + 1, n =>
    if n = Node.ROOT then some [Node.ROOT]
    else
      match parentsList g n with
      | [p] => (upChain g fuel p).map (fun L => n :: L)
      | _ => none

/-- Whether some upward parent path from `n` reaches the ROOT. -/
def reachesRoot (g : DiGraph) : Nat → Node → Bool
  | 0, _ => false
  | fuel + 1, n =>
    if n = Node.ROOT then true
    else (parentsList g n).any (reachesRoot g fuel)

/-- The data-model invariant of a rooted hierarchy: every node has an upward
path to the ROOT. -/
def rootedAll (g : DiGraph) : Prop :=
  ∀ n ∈ g.nodes, reachesRoot g (g.nodes.length + 1) n = true

instance (g : DiGraph) : Decidable (rootedAll g) := by
  unfold rootedAll; infer_instance

/-- A tree hierarchy: ROOT is a node without parents and every non-root node
has a unique parent chain reaching the ROOT. -/
def Tree (g : DiGraph) : Prop :=
  Node.ROOT ∈ g.nodes ∧ parentsList g Node.ROOT = [] ∧ edgeClosed g ∧
    ∀ n ∈ g.nodes, (upChain g (g.nodes.length + 1) n).isSome = true

instance (g : DiGraph) : Decidable (Tree g) := by
  unfold Tree; infer_instance

/-- Binary (0/1) matrix. -/
def Binary (m : Mat) : Prop := ∀ row ∈ m, ∀ v ∈ row, v ≤ 1

instance (m : Mat) : Decidable (Binary m) := by
  unfold Binary; infer_instance

/-- Rectangular matrix: every row has the common width. -/
def Rect (m : Mat) : Prop := ∀ row ∈ m, row.length = nCols m

instance (m : Mat) : Decidable (Rect m) := by
  unfold Rect; infer_instance

/-- The marking condition of the `fill_ancestors` loop over a target list
(reading rows from `orig`, i.e. the `copy=True` mode): entry `(i, c)` gets
written 1 by the target `t` pass when row `i` of `orig` is positive at `t`'s
column and `c` is among the stripped ancestor enumeration of `t`. -/
def markedAt (g : DiGraph) (orig : Mat) (targets : List Node) (i c : Nat) : Prop :=
  ∃ t ∈ targets, t ≠ Node.ROOT ∧ i ∈ rowsWhere orig (idOfD t) ∧ c ∈ ancIds g t

/-- The conditions under which the body of the fill loop for target `t` does
not raise, against the common width `w` of the matrices involved. -/
def stepOK (g : DiGraph) (w : Nat) (t : Node) : Prop :=
  idOfD t < w ∧ Node.ROOT ∉ ancList g t ∧ ∀ a ∈ ancList g t, idOfD a < w

/-- Indexed form of rectangularity. -/
def RectI (m : Mat) : Prop :=
  ∀ i, i < m.length → ((m.getD i []).length = nCols m)

/-! ### Matrix write lemmas -/

theorem setRow_length (r : List Nat) (c : Nat) : (setRow r c).length = r.length := by
  induction r generalizing c with
  | nil => rfl
  | cons x xs ih =>
    cases c with
    | zero => rfl
    | succ c => simp [setRow, ih]

theorem setRow_getD (r : List Nat) (c c' : Nat) :
    (setRow r c).getD c' 0 = if c' = c ∧ c < r.length then 1 else r.getD c' 0 := by
  induction r generalizing c c' with
  | nil => simp [setRow]
  | cons x xs ih =>
    cases c with
    | zero =>
      cases c' with
      | zero => simp [setRow]
      | succ c' => simp [setRow]
    | succ c =>
      cases c' with
      | zero => simp [setRow]
      | succ c' =>
        simp only [setRow, List.getD_cons_succ, ih, List.length_cons]
        by_cases h : c' = c ∧ c < xs.length
        · rw [if_pos h, if_pos ⟨by omega, by omega⟩]
        · rw [if_neg h, if_neg (by omega)]

theorem setEntry_length (m : Mat) (i c : Nat) : (setEntry m i c).length = m.length := by
  induction m generalizing i with
  | nil => rfl
  | cons r rs ih =>
    cases i with
    | zero => rfl
    | succ i => simp [setEntry, ih]

theorem setEntry_row (m : Mat) (i c j : Nat) :
    (setEntry m i c).getD j [] =
      if j = i ∧ i < m.length then setRow (m.getD i []) c else m.getD j [] := by
  induction m generalizing i j with
  | nil => simp [setEntry]
  | cons r rs ih =>
    cases i with
    | zero =>
      cases j with
      | zero => simp [setEntry]
      | succ j => simp [setEntry]
    | succ i =>
      cases j with
      | zero => simp [setEntry]
      | succ j =>
        simp only [setEntry, List.getD_cons_succ, ih, List.length_cons]
        by_cases h : j = i ∧ i < rs.length
        · rw [if_pos h, if_pos ⟨by omega, by omega⟩]
        · rw [if_neg h, if_neg (by omega)]

theorem setEntry_rowlen (m : Mat) (i c j : Nat) :
    ((setEntry m i c).getD j []).length = ((m.getD j []).length) := by
  rw [setEntry_row]
  by_cases h : j = i ∧ i < m.length
  · rw [if_pos h, setRow_length, h.1]
  · rw [if_neg h]

theorem getEntry_setEntry (m : Mat) (i c i' c' : Nat) :
    getEntry (setEntry m i c) i' c' =
      if i' = i ∧ c' = c ∧ i < m.length ∧ c < (m.getD i []).length then 1
      else getEntry m i' c' := by
  unfold getEntry
  rw [setEntry_row]
  by_cases h : i' = i ∧ i < m.length
  · rw [if_pos h, setRow_getD, h.1]
    by_cases h2 : c' = c ∧ c < (m.getD i []).length
    · rw [if_pos h2, if_pos ⟨rfl, h2.1, h.2, h2.2⟩]
    · rw [if_neg h2, if_neg (by tauto)]
  · rw [if_neg h, if_neg (by tauto)]

theorem markRow_length (m : Mat) (i : Nat) (cs : List Nat) :
    (markRow m i cs).length = m.length := by
  induction cs generalizing m with
  | nil => rfl
  | cons c cs ih =>
    show (markRow (setEntry m i c) i cs).length = _
    rw [ih, setEntry_length]

theorem markRow_rowlen (m : Mat) (i : Nat) (cs : List Nat) (j : Nat) :
    ((markRow m i cs).getD j []).length = ((m.getD j []).length) := by
  induction cs generalizing m with
  | nil => rfl
  | cons c cs ih =>
    show ((markRow (setEntry m i c) i cs).getD j []).length = _
    rw [ih, setEntry_rowlen]

theorem getEntry_markRow (m : Mat) (i : Nat) (cs : List Nat) (i' c' : Nat) :
    getEntry (markRow m i cs) i' c' =
      if i' = i ∧ c' ∈ cs ∧ i < m.length ∧ c' < (m.getD i []).length then 1
      else getEntry m i' c' := by
  induction cs generalizing m with
  | nil => simp [markRow]
  | cons c cs ih =>
    show getEntry (markRow (setEntry m i c) i cs) i' c' = _
    rw [ih, setEntry_length, setEntry_rowlen, getEntry_setEntry]
    by_cases hA : i' = i ∧ c' ∈ cs ∧ i < m.length ∧ c' < (m.getD i []).length
    · rw [if_pos hA, if_pos ⟨hA.1, List.mem_cons_of_mem _ hA.2.1, hA.2.2⟩]
    · rw [if_neg hA]
      by_cases hB : i' = i ∧ c' = c ∧ i < m.length ∧ c < (m.getD i []).length
      · have hc' : c' < (m.getD i []).length := by rw [hB.2.1]; exact hB.2.2.2
        rw [if_pos hB, if_pos ⟨hB.1, by rw [hB.2.1]; exact List.mem_cons_self _ _,
          hB.2.2.1, hc'⟩]
      · rw [if_neg hB, if_neg (fun h => by
          rcases List.mem_cons.mp h.2.1 with h' | h'
          · exact hB ⟨h.1, h', h.2.2.1, by rw [← h']; exact h.2.2.2⟩
          · exact hA ⟨h.1, h', h.2.2⟩)]

theorem markMat_length (m : Mat) (rows cols : List Nat) :
    (markMat m rows cols).length = m.length := by
  induction rows generalizing m with
  | nil => rfl
  | cons r rs ih =>
    show (markMat (markRow m r cols) rs cols).length = _
    rw [ih, markRow_length]

theorem markMat_rowlen (m : Mat) (rows cols : List Nat) (j : Nat) :
    ((markMat m rows cols).getD j []).length = ((m.getD j []).length) := by
  induction rows generalizing m with
  | nil => rfl
  | cons r rs ih =>
    show ((markMat (markRow m r cols) rs cols).getD j []).length = _
    rw [ih, markRow_rowlen]

theorem getEntry_markMat (m : Mat) (rows cols : List Nat) (i c : Nat) :
    getEntry (markMat m rows cols) i c =
      if i ∈ rows ∧ c ∈ cols ∧ i < m.length ∧ c < (m.getD i []).length then 1
      else getEntry m i c := by
  induction rows generalizing m with
  | nil => simp [markMat]
  | cons r rs ih =>
    show getEntry (markMat (markRow m r cols) rs cols) i c = _
    rw [ih, markRow_length, markRow_rowlen, getEntry_markRow]
    by_cases hA : i ∈ rs ∧ c ∈ cols ∧ i < m.length ∧ c < (m.getD i []).length
    · rw [if_pos hA, if_pos ⟨List.mem_cons_of_mem _ hA.1, hA.2⟩]
    · rw [if_neg hA]
      by_cases hB : i = r ∧ c ∈ cols ∧ r < m.length ∧ c < (m.getD r []).length
      · rw [if_pos hB, if_pos ⟨by rw [hB.1]; exact List.mem_cons_self _ _, hB.2.1,
          by rw [hB.1]; exact hB.2.2.1, by rw [hB.1]; exact hB.2.2.2⟩]
      · rw [if_neg hB, if_neg (fun h => by
          rcases List.mem_cons.mp h.1 with h' | h'
          · exact hB ⟨h', h.2.1, by rw [← h']; exact h.2.2.1, by rw [← h']; exact h.2.2.2⟩
          · exact hA ⟨h', h.2⟩)]

theorem getEntry_markMat_cases (m : Mat) (rows cols : List Nat) (i c : Nat) :
    getEntry (markMat m rows cols) i c = 1 ∨
      getEntry (markMat m rows cols) i c = getEntry m i c := by
  rw [getEntry_markMat]
  by_cases h : i ∈ rows ∧ c ∈ cols ∧ i < m.length ∧ c < (m.getD i []).length
  · exact Or.inl (if_pos h)
  · exact Or.inr (if_neg h)

theorem mem_rowsWhere (m : Mat) (c i : Nat) :
    i ∈ rowsWhere m c ↔ i < m.length ∧ 0 < getEntry m i c := by
  simp [rowsWhere, List.mem_filter, List.mem_range]

theorem nCols_markMat (m : Mat) (rows cols : List Nat) :
    nCols (markMat m rows cols) = nCols m := by
  unfold nCols
  rw [markMat_rowlen]

theorem getD_mem {α : Type _} (l : List α) (d : α) (i : Nat) (h : i < l.length) :
    l.getD i d ∈ l := by
  rw [List.getD_eq_getElem?_getD, List.getElem?_eq_getElem h, Option.getD_some]
  exact List.getElem_mem h

theorem rectI_of_rect {m : Mat} (h : Rect m) : RectI m := by
  intro i hi
  exact h _ (getD_mem m [] i hi)

theorem rectI_markMat {m : Mat} (rows cols : List Nat) (h : RectI m) :
    RectI (markMat m rows cols) := by
  intro i hi
  rw [markMat_length] at hi
  rw [markMat_rowlen, nCols_markMat]
  exact h i hi

/-! ### Graph and BFS lemmas -/

theorem mem_adjOf {g : DiGraph} {a b : Node} : b ∈ adjOf g a ↔ (a, b) ∈ g.edges := by
  simp only [adjOf, List.mem_map, List.mem_filter, decide_eq_true_eq]
  constructor
  · rintro ⟨e, ⟨he, h1⟩, h2⟩
    rcases e with ⟨e1, e2⟩
    cases h1; cases h2; exact he
  · intro h
    exact ⟨(a, b), ⟨h, rfl⟩, rfl⟩

theorem mem_parentsList {g : DiGraph} {x p : Node} :
    p ∈ parentsList g x ↔ (p, x) ∈ g.edges := by
  simp only [parentsList, List.mem_map, List.mem_filter, decide_eq_true_eq]
  constructor
  · rintro ⟨e, ⟨he, h1⟩, h2⟩
    rcases e with ⟨e1, e2⟩
    cases h1; cases h2; exact he
  · intro h
    exact ⟨(p, x), ⟨h, rfl⟩, rfl⟩

theorem adjOf_reverse (g : DiGraph) (x : Node) :
    adjOf (reverse g) x = parentsList g x := by
  unfold adjOf parentsList reverse
  induction g.edges with
  | nil => rfl
  | cons e es ih =>
    rcases e with ⟨a, b⟩
    simp only [List.map_cons, List.filter_cons]
    by_cases h : b = x
    · subst h
      rw [if_pos (by simp), if_pos (by simp)]
      simpa using ih
    · rw [if_neg (by simpa using h), if_neg (by simpa using h)]
      exact ih

theorem reverse_nodes (g : DiGraph) : (reverse g).nodes = g.nodes := rfl

theorem reverse_reverse (g : DiGraph) : reverse (reverse g) = g := by
  unfold reverse
  simp only [List.map_map]
  have h : ((fun e : Node × Node => (e.2, e.1)) ∘ fun e : Node × Node => (e.2, e.1)) =
      id := by
    funext e; rfl
  rw [h, List.map_id]

theorem step_reverse {g : DiGraph} {a b : Node} :
    Step (reverse g) a b ↔ Step g b a := by
  unfold Step reverse
  simp only [List.mem_map, Prod.mk.injEq]
  constructor
  · rintro ⟨e, he, h1, h2⟩
    rcases e with ⟨e1, e2⟩
    cases h1; cases h2; exact he
  · intro h
    exact ⟨(b, a), h, rfl, rfl⟩

theorem edgeClosed_reverse {g : DiGraph} (h : edgeClosed g) : edgeClosed (reverse g) := by
  rintro ⟨a, b⟩ hab
  simp only [reverse, List.mem_map, Prod.mk.injEq] at hab
  rcases hab with ⟨⟨e1, e2⟩, he, h1, h2⟩
  cases h1; cases h2
  exact ⟨(h _ he).2, (h _ he).1⟩

theorem rtg_reverse {g : DiGraph} {a b : Node} :
    Relation.ReflTransGen (Step (reverse g)) a b ↔
      Relation.ReflTransGen (Step g) b a := by
  constructor
  · intro h
    induction h with
    | refl => exact Relation.ReflTransGen.refl
    | tail _ hstep ih =>
      exact Relation.ReflTransGen.head (step_reverse.mp hstep) ih
  · intro h
    induction h using Relation.ReflTransGen.head_induction_on with
    | refl => exact Relation.ReflTransGen.refl
    | head hstep _ ih =>
      exact Relation.ReflTransGen.tail ih (step_reverse.mpr hstep)

theorem newNodes_subset {seen fr : List Node} {x : Node} (h : x ∈ newNodes seen fr) :
    x ∈ fr := by
  induction fr generalizing seen with
  | nil => simp [newNodes] at h
  | cons y ys ih =>
    unfold newNodes at h
    by_cases hy : y ∈ seen
    · rw [if_pos hy] at h
      exact List.mem_cons_of_mem _ (ih h)
    · rw [if_neg hy] at h
      rcases List.mem_cons.mp h with h | h
      · exact h ▸ List.mem_cons_self _ _
      · exact List.mem_cons_of_mem _ (ih h)

theorem newNodes_not_seen {seen fr : List Node} {x : Node} (h : x ∈ newNodes seen fr) :
    x ∉ seen := by
  induction fr generalizing seen with
  | nil => simp [newNodes] at h
  | cons y ys ih =>
    unfold newNodes at h
    by_cases hy : y ∈ seen
    · rw [if_pos hy] at h
      exact ih h
    · rw [if_neg hy] at h
      rcases List.mem_cons.mp h with h | h
      · exact h ▸ hy
      · intro hx
        exact ih h (List.mem_cons_of_mem _ hx)

theorem newNodes_nodup (seen fr : List Node) : (newNodes seen fr).Nodup := by
  induction fr generalizing seen with
  | nil => simp [newNodes]
  | cons y ys ih =>
    unfold newNodes
    by_cases hy : y ∈ seen
    · rw [if_pos hy]
      exact ih seen
    · rw [if_neg hy]
      refine List.nodup_cons.mpr ⟨?_, ih (y :: seen)⟩
      intro hmem
      exact newNodes_not_seen hmem (List.mem_cons_self _ _)

theorem newNodes_cover (seen : List Node) {fr : List Node} {x : Node}
    (h : x ∈ fr) : x ∈ seen ∨ x ∈ newNodes seen fr := by
  induction fr generalizing seen with
  | nil => simp at h
  | cons y ys ih =>
    unfold newNodes
    by_cases hy : y ∈ seen
    · rw [if_pos hy]
      rcases List.mem_cons.mp h with h | h
      · exact Or.inl (h ▸ hy)
      · exact ih seen h
    · rw [if_neg hy]
      rcases List.mem_cons.mp h with h | h
      · exact Or.inr (h ▸ List.mem_cons_self _ _)
      · rcases ih (y :: seen) h with hin | hin
        · rcases List.mem_cons.mp hin with hin | hin
          · exact Or.inr (hin ▸ List.mem_cons_self _ _)
          · exact Or.inl hin
        · exact Or.inr (List.mem_cons_of_mem _ hin)

theorem newNodes_nil {seen fr : List Node} (h : newNodes seen fr = []) :
    ∀ x ∈ fr, x ∈ seen := by
  intro x hx
  rcases newNodes_cover seen hx with h' | h'
  · exact h'
  · rw [h] at h'
    simp at h'

theorem bfsLoop_extends (G : DiGraph) (fuel : Nat) (fr seen : List Node) :
    ∃ rest, bfsLoop G fuel fr seen = seen ++ rest := by
  induction fuel generalizing fr seen with
  | zero => exact ⟨[], by simp [bfsLoop]⟩
  | succ fuel ih =>
    unfold bfsLoop
    cases hnew : newNodes seen fr with
    | nil => exact ⟨[], by simp⟩
    | cons x xs =>
      rcases ih ((x :: xs).flatMap (adjOf G)) (seen ++ x :: xs) with ⟨rest, hrest⟩
      refine ⟨x :: xs ++ rest, ?_⟩
      show bfsLoop G fuel ((x :: xs).flatMap (adjOf G)) (seen ++ x :: xs) = _
      rw [hrest, List.append_assoc]

theorem bfsLoop_mem_seen {G : DiGraph} {fuel : Nat} {fr seen : List Node} {x : Node}
    (h : x ∈ seen) : x ∈ bfsLoop G fuel fr seen := by
  rcases bfsLoop_extends G fuel fr seen with ⟨rest, hrest⟩
  rw [hrest]
  exact List.mem_append_left _ h

theorem bfsLoop_subset {G : DiGraph} (hE : edgeClosed G) (fuel : Nat)
    (fr seen : List Node) (hseen : ∀ x ∈ seen, x ∈ G.nodes)
    (hfr : ∀ x ∈ fr, x ∈ G.nodes) :
    ∀ x ∈ bfsLoop G fuel fr seen, x ∈ G.nodes := by
  induction fuel generalizing fr seen with
  | zero => exact hseen
  | succ fuel ih =>
    unfold bfsLoop
    cases hnew : newNodes seen fr with
    | nil => exact hseen
    | cons x xs =>
      apply ih
      · intro z hz
        rcases List.mem_append.mp hz with hz | hz
        · exact hseen z hz
        · exact hfr z (newNodes_subset (hnew ▸ hz))
      · intro z hz
        rcases List.mem_flatMap.mp hz with ⟨u, hu, hzu⟩
        exact (hE _ (mem_adjOf.mp hzu)).2

theorem bfsLoop_nodup {G : DiGraph} (fuel : Nat) (fr seen : List Node)
    (hseen : seen.Nodup) : (bfsLoop G fuel fr seen).Nodup := by
  induction fuel generalizing fr seen with
  | zero => exact hseen
  | succ fuel ih =>
    unfold bfsLoop
    cases hnew : newNodes seen fr with
    | nil => exact hseen
    | cons x xs =>
      apply ih
      refine List.Nodup.append hseen (hnew ▸ newNodes_nodup seen fr) ?_
      intro a ha hb
      exact newNodes_not_seen (hnew ▸ hb : a ∈ newNodes seen fr) ha

theorem bfsLoop_sound {G : DiGraph} (R : Node → Prop)
    (hR : ∀ a b, R a → b ∈ adjOf G a → R b) (fuel : Nat) (fr seen : List Node)
    (hseen : ∀ x ∈ seen, R x) (hfr : ∀ x ∈ fr, R x) :
    ∀ x ∈ bfsLoop G fuel fr seen, R x := by
  induction fuel generalizing fr seen with
  | zero => exact hseen
  | succ fuel ih =>
    unfold bfsLoop
    cases hnew : newNodes seen fr with
    | nil => exact hseen
    | cons x xs =>
      apply ih
      · intro z hz
        rcases List.mem_append.mp hz with hz | hz
        · exact hseen z hz
        · exact hfr z (newNodes_subset (hnew ▸ hz))
      · intro z hz
        rcases List.mem_flatMap.mp hz with ⟨u, hu, hzu⟩
        exact hR u z (hfr u (newNodes_subset (hnew ▸ hu))) hzu

theorem nodup_subset_length {l nodes : List Node} (hN : l.Nodup)
    (hsub : ∀ x ∈ l, x ∈ nodes) : l.length ≤ nodes.dedup.length := by
  have hsub' : l ⊆ nodes.dedup := by
    intro x hx
    exact List.mem_dedup.mpr (hsub x hx)
  exact (List.subperm_of_subset hN hsub').length_le

theorem bfsLoop_closed {G : DiGraph} (hE : edgeClosed G) (fuel : Nat)
    (fr seen : List Node) (hN : seen.Nodup)
    (hseen : ∀ x ∈ seen, x ∈ G.nodes) (hfr : ∀ x ∈ fr, x ∈ G.nodes)
    (hI : ∀ u ∈ seen, ∀ v ∈ adjOf G u, v ∈ seen ∨ v ∈ fr)
    (hfuel : G.nodes.dedup.length + 1 ≤ fuel + seen.length) :
    (∀ x ∈ fr, x ∈ bfsLoop G fuel fr seen) ∧
      (∀ u ∈ bfsLoop G fuel fr seen, ∀ v ∈ adjOf G u, v ∈ bfsLoop G fuel fr seen) := by
  induction fuel generalizing fr seen with
  | zero =>
    have := nodup_subset_length hN hseen
    omega
  | succ fuel ih =>
    unfold bfsLoop
    cases hnew : newNodes seen fr with
    | nil =>
      have hcov := newNodes_nil hnew
      refine ⟨hcov, ?_⟩
      intro u hu v hv
      rcases hI u hu v hv with h | h
      · exact h
      · exact hcov v h
    | cons x xs =>
      have hfound : ∀ z ∈ x :: xs, z ∈ newNodes seen fr := fun z hz => hnew ▸ hz
      have hseen' : ∀ z ∈ seen ++ x :: xs, z ∈ G.nodes := by
        intro z hz
        rcases List.mem_append.mp hz with hz | hz
        · exact hseen z hz
        · exact hfr z (newNodes_subset (hfound z hz))
      have hN' : (seen ++ x :: xs).Nodup := by
        refine List.Nodup.append hN (hnew ▸ newNodes_nodup seen fr) ?_
        intro a ha hb
        exact newNodes_not_seen (hfound a hb) ha
      have hfr' : ∀ z ∈ (x :: xs).flatMap (adjOf G), z ∈ G.nodes := by
        intro z hz
        rcases List.mem_flatMap.mp hz with ⟨u, hu, hzu⟩
        exact (hE _ (mem_adjOf.mp hzu)).2
      have hI' : ∀ u ∈ seen ++ x :: xs, ∀ v ∈ adjOf G u,
          v ∈ seen ++ x :: xs ∨ v ∈ (x :: xs).flatMap (adjOf G) := by
        intro u hu v hv
        rcases List.mem_append.mp hu with hu | hu
        · rcases hI u hu v hv with h | h
          · exact Or.inl (List.mem_append_left _ h)
          · rcases newNodes_cover seen h with h' | h'
            · exact Or.inl (List.mem_append_left _ h')
            · exact Or.inl (List.mem_append_right _ (hnew ▸ h'))
        · exact Or.inr (List.mem_flatMap.mpr ⟨u, hu, hv⟩)
      have hfuel' : G.nodes.dedup.length + 1 ≤ fuel + (seen ++ x :: xs).length := by
        rw [List.length_append]
        simp only [List.length_cons]
        omega
      rcases ih ((x :: xs).flatMap (adjOf G)) (seen ++ x :: xs) hN' hseen' hfr' hI'
        hfuel' with ⟨ih1, ih2⟩
      refine ⟨?_, ih2⟩
      intro z hz
      rcases newNodes_cover seen hz with h' | h'
      · exact bfsLoop_mem_seen (List.mem_append_left _ h')
      · exact bfsLoop_mem_seen (List.mem_append_right _ (hnew ▸ h'))

theorem bfsOrder_spec {G : DiGraph} (hE : edgeClosed G) {s : Node}
    (hs : s ∈ G.nodes) :
    s ∈ bfsOrder G s ∧
      (∀ u ∈ bfsOrder G s, ∀ v ∈ adjOf G u, v ∈ bfsOrder G s) ∧
      (∀ x ∈ bfsOrder G s, Relation.ReflTransGen (Step G) s x) ∧
      (bfsOrder G s).Nodup ∧ (∀ x ∈ bfsOrder G s, x ∈ G.nodes) := by
  have hfuel : G.nodes.dedup.length + 1 ≤ (G.nodes.length + 1) + ([] : List Node).length := by
    have := (List.dedup_sublist G.nodes).length_le
    simp
    omega
  have hclosed := bfsLoop_closed hE (G.nodes.length + 1) [s] [] (by simp)
    (by simp) (by simpa using hs) (by simp) hfuel
  refine ⟨hclosed.1 s (List.mem_cons_self _ _), hclosed.2, ?_, ?_, ?_⟩
  · apply bfsLoop_sound (fun x => Relation.ReflTransGen (Step G) s x)
    · intro a b ha hb
      exact Relation.ReflTransGen.tail ha (mem_adjOf.mp hb)
    · simp
    · intro x hx
      rcases List.mem_singleton.mp hx with rfl
      exact Relation.ReflTransGen.refl
  · exact bfsLoop_nodup _ _ _ (by simp)
  · exact bfsLoop_subset hE _ _ _ (by simp) (by simpa using hs)

theorem bfsOrder_complete {G : DiGraph} (hE : edgeClosed G) {s x : Node}
    (hs : s ∈ G.nodes) (h : Relation.ReflTransGen (Step G) s x) :
    x ∈ bfsOrder G s := by
  induction h with
  | refl => exact (bfsOrder_spec hE hs).1
  | tail _ hstep ih =>
    exact (bfsOrder_spec hE hs).2.1 _ ih _ (mem_adjOf.mpr hstep)

/-! ### Parent-chain lemmas and the tree BFS characterization -/

theorem bfsLoop_step (G : DiGraph) (fuel : Nat) (fr seen : List Node) :
    bfsLoop G (fuel + 1) fr seen =
      match newNodes seen fr with
      | [] => seen
      | x :: xs => bfsLoop G fuel ((x :: xs).flatMap (adjOf G)) (seen ++ x :: xs) :=
  rfl

theorem bfsLoop_step_nil {G : DiGraph} {fuel : Nat} {fr seen : List Node}
    (h : newNodes seen fr = []) : bfsLoop G (fuel + 1) fr seen = seen := by
  rw [bfsLoop_step, h]

theorem bfsLoop_step_cons {G : DiGraph} {fuel : Nat} {fr seen : List Node}
    {x : Node} {xs : List Node} (h : newNodes seen fr = x :: xs) :
    bfsLoop G (fuel + 1) fr seen =
      bfsLoop G fuel ((x :: xs).flatMap (adjOf G)) (seen ++ x :: xs) := by
  rw [bfsLoop_step, h]

theorem bfsLoop_nil_frontier (G : DiGraph) (fuel : Nat) (seen : List Node) :
    bfsLoop G fuel [] seen = seen := by
  cases fuel with
  | zero => rfl
  | succ fuel => exact bfsLoop_step_nil rfl

theorem upChain_det (g : DiGraph) :
    ∀ f1 f2 n L1 L2, upChain g f1 n = some L1 → upChain g f2 n = some L2 →
      L1 = L2 := by
  intro f1
  induction f1 with
  | zero => intro f2 n L1 L2 h1 _; simp [upChain] at h1
  | succ f1 ih =>
    intro f2 n L1 L2 h1 h2
    cases f2 with
    | zero => simp [upChain] at h2
    | succ f2 =>
      rw [upChain] at h1 h2
      by_cases hn : n = Node.ROOT
      · rw [if_pos hn] at h1 h2
        cases h1; cases h2; rfl
      · rw [if_neg hn] at h1 h2
        cases hp : parentsList g n with
        | nil => rw [hp] at h1; simp at h1
        | cons p ps =>
          cases ps with
          | cons q qs => rw [hp] at h1; simp at h1
          | nil =>
            rw [hp] at h1 h2
            simp only [Option.map_eq_some'] at h1 h2
            rcases h1 with ⟨L1', hL1, rfl⟩
            rcases h2 with ⟨L2', hL2, rfl⟩
            rw [ih f2 p L1' L2' hL1 hL2]

theorem upChain_suffix (g : DiGraph) :
    ∀ f n L, upChain g f n = some L → ∀ a ∈ L,
      ∃ f' L', f' ≤ f ∧ upChain g f' a = some L' ∧ L' <:+ L := by
  intro f
  induction f with
  | zero => intro n L h; simp [upChain] at h
  | succ f ih =>
    intro n L h a ha
    rw [upChain] at h
    by_cases hn : n = Node.ROOT
    · rw [if_pos hn] at h
      cases h
      rcases List.mem_singleton.mp ha with rfl
      exact ⟨f + 1, [Node.ROOT], le_refl _, by rw [upChain, if_pos rfl],
        List.suffix_refl _⟩
    · rw [if_neg hn] at h
      cases hp : parentsList g n with
      | nil => rw [hp] at h; simp at h
      | cons p ps =>
        cases ps with
        | cons q qs => rw [hp] at h; simp at h
        | nil =>
          rw [hp] at h
          simp only [Option.map_eq_some'] at h
          rcases h with ⟨L', hL', rfl⟩
          rcases List.mem_cons.mp ha with rfl | ha
          · exact ⟨f + 1, a :: L', le_refl _,
              by rw [upChain, if_neg hn, hp]; simp [hL'], List.suffix_refl _⟩
          · rcases ih p L' hL' a ha with ⟨f', La, hf', hup, hsuf⟩
            exact ⟨f', La, Nat.le_succ_of_le hf', hup, hsuf.trans (List.suffix_cons _ _)⟩

theorem upChain_nodup (g : DiGraph) :
    ∀ f n L, upChain g f n = some L → L.Nodup := by
  intro f
  induction f with
  | zero => intro n L h; simp [upChain] at h
  | succ f ih =>
    intro n L h
    rw [upChain] at h
    by_cases hn : n = Node.ROOT
    · rw [if_pos hn] at h
      cases h
      simp
    · rw [if_neg hn] at h
      cases hp : parentsList g n with
      | nil => rw [hp] at h; simp at h
      | cons p ps =>
        cases ps with
        | cons q qs => rw [hp] at h; simp at h
        | nil =>
          rw [hp] at h
          simp only [Option.map_eq_some'] at h
          rcases h with ⟨L', hL', rfl⟩
          refine List.nodup_cons.mpr ⟨?_, ih p L' hL'⟩
          intro hmem
          rcases upChain_suffix g f p L' hL' n hmem with ⟨f', La, hf', hup, hsuf⟩
          have hLa : La = n :: L' := upChain_det g f' (f + 1) n La (n :: L') hup
            (by rw [upChain, if_neg hn, hp]; simp [hL'])
          have hlen := hsuf.length_le
          rw [hLa] at hlen
          simp at hlen

theorem upChain_last (g : DiGraph) :
    ∀ f n L, upChain g f n = some L → L.getLast? = some Node.ROOT := by
  intro f
  induction f with
  | zero => intro n L h; simp [upChain] at h
  | succ f ih =>
    intro n L h
    rw [upChain] at h
    by_cases hn : n = Node.ROOT
    · rw [if_pos hn] at h
      cases h
      rfl
    · rw [if_neg hn] at h
      cases hp : parentsList g n with
      | nil => rw [hp] at h; simp at h
      | cons p ps =>
        cases ps with
        | cons q qs => rw [hp] at h; simp at h
        | nil =>
          rw [hp] at h
          simp only [Option.map_eq_some'] at h
          rcases h with ⟨L', hL', rfl⟩
          cases L' with
          | nil =>
            have := ih p [] hL'
            simp at this
          | cons b l =>
            rw [List.getLast?_cons_cons]
            exact ih p (b :: l) hL'

theorem upChain_mem_nodes (g : DiGraph) (hE : edgeClosed g) :
    ∀ f n L, upChain g f n = some L → n ∈ g.nodes → ∀ a ∈ L, a ∈ g.nodes := by
  intro f
  induction f with
  | zero => intro n L h; simp [upChain] at h
  | succ f ih =>
    intro n L h hn a ha
    rw [upChain] at h
    by_cases hroot : n = Node.ROOT
    · rw [if_pos hroot] at h
      cases h
      rcases List.mem_singleton.mp ha with rfl
      exact hroot ▸ hn
    · rw [if_neg hroot] at h
      cases hp : parentsList g n with
      | nil => rw [hp] at h; simp at h
      | cons p ps =>
        cases ps with
        | cons q qs => rw [hp] at h; simp at h
        | nil =>
          rw [hp] at h
          simp only [Option.map_eq_some'] at h
          rcases h with ⟨L', hL', rfl⟩
          have hpmem : p ∈ g.nodes := by
            have : (p, n) ∈ g.edges := mem_parentsList.mp (by rw [hp]; simp)
            exact (hE _ this).1
          rcases List.mem_cons.mp ha with rfl | ha
          · exact hn
          · exact ih p L' hL' hpmem a ha

theorem upChain_isSome_exists {g : DiGraph} {f : Nat} {n : Node}
    (h : (upChain g f n).isSome = true) : ∃ L, upChain g f n = some L := by
  cases hL : upChain g f n with
  | none => rw [hL] at h; simp at h
  | some L => exact ⟨L, rfl⟩

theorem bfsLoop_chain (g : DiGraph) (hroot : parentsList g Node.ROOT = []) :
    ∀ f n L seen fuel, upChain g f n = some L → L.Nodup →
      (∀ a ∈ L, a ∉ seen) → L.length ≤ fuel →
      bfsLoop (reverse g) fuel [n] seen = seen ++ L := by
  intro f
  induction f with
  | zero => intro n L seen fuel h; simp [upChain] at h
  | succ f ih =>
    intro n L seen fuel h hN hdis hfuel
    rw [upChain] at h
    by_cases hn : n = Node.ROOT
    · rw [if_pos hn] at h
      cases h
      subst hn
      cases fuel with
      | zero => simp at hfuel
      | succ fuel =>
        have hnseen : Node.ROOT ∉ seen := hdis _ (List.mem_singleton_self _)
        have hnew : newNodes seen [Node.ROOT] = [Node.ROOT] := by
          unfold newNodes
          rw [if_neg hnseen]
          rfl
        rw [bfsLoop_step_cons hnew]
        have hfr : (([Node.ROOT] : List Node).flatMap (adjOf (reverse g))) = [] := by
          simp [adjOf_reverse, hroot]
        rw [hfr, bfsLoop_nil_frontier]
    · rw [if_neg hn] at h
      cases hp : parentsList g n with
      | nil => rw [hp] at h; simp at h
      | cons p ps =>
        cases ps with
        | cons q qs => rw [hp] at h; simp at h
        | nil =>
          rw [hp] at h
          simp only [Option.map_eq_some'] at h
          rcases h with ⟨L', hL', rfl⟩
          cases fuel with
          | zero => simp at hfuel
          | succ fuel =>
            have hnseen : n ∉ seen := hdis _ (List.mem_cons_self _ _)
            have hnew : newNodes seen [n] = [n] := by
              unfold newNodes
              rw [if_neg hnseen]
              rfl
            rw [bfsLoop_step_cons hnew]
            have hfr : (([n] : List Node).flatMap (adjOf (reverse g))) = [p] := by
              simp [adjOf_reverse, hp]
            rw [hfr]
            have hrec := ih p L' (seen ++ [n]) fuel hL' (List.nodup_cons.mp hN).2
              (by
                intro a ha hmem
                rcases List.mem_append.mp hmem with hmem | hmem
                · exact hdis a (List.mem_cons_of_mem _ ha) hmem
                · rcases List.mem_singleton.mp hmem with rfl
                  exact (List.nodup_cons.mp hN).1 ha)
              (by simp at hfuel; omega)
            rw [hrec, List.append_assoc]
            rfl

theorem tree_bfs {g : DiGraph} (hT : Tree g) :
    ∀ n ∈ g.nodes, ∃ L, upChain g (g.nodes.length + 1) n = some L ∧
      bfsOrder (reverse g) n = L := by
  intro n hn
  rcases upChain_isSome_exists (hT.2.2.2 n hn) with ⟨L, hL⟩
  refine ⟨L, hL, ?_⟩
  have hlen : L.length ≤ g.nodes.length + 1 := by
    have h1 : L.length ≤ g.nodes.dedup.length :=
      nodup_subset_length (upChain_nodup g _ n L hL)
        (upChain_mem_nodes g hT.2.2.1 _ n L hL hn)
    have h2 := (List.dedup_sublist g.nodes).length_le
    omega
  have := bfsLoop_chain g hT.2.1 _ n L [] (g.nodes.length + 1) hL
    (upChain_nodup g _ n L hL) (by simp) hlen
  unfold bfsOrder
  rw [reverse_nodes]
  simpa using this

/-! ### Fill-loop lemmas -/

theorem fillFold_cons_root (g : DiGraph) (copy : Bool) (orig : Mat)
    (ts : List Node) (cur : Mat) :
    fillFold g copy orig (Node.ROOT :: ts) cur = fillFold g copy orig ts cur := by
  rw [fillFold, if_pos rfl]

theorem fillFold_cons (g : DiGraph) (copy : Bool) (orig : Mat) {t : Node}
    (ts : List Node) (cur : Mat) (ht : t ≠ Node.ROOT) :
    fillFold g copy orig (t :: ts) cur =
      (if idOfD t < nCols (if copy then orig else cur) then
        if Node.ROOT ∈ ancList g t then (none, cur)
        else if (ancList g t).any (fun a => decide (nCols cur ≤ idOfD a)) then
          (none, cur)
        else fillFold g copy orig ts
          (markMat cur (rowsWhere (if copy then orig else cur) (idOfD t))
            ((ancList g t).map idOfD))
      else (none, cur)) := by
  rw [fillFold, if_neg ht]

theorem fillFold_cons_true (g : DiGraph) (orig : Mat) {t : Node}
    (ts : List Node) (cur : Mat) (ht : t ≠ Node.ROOT) :
    fillFold g true orig (t :: ts) cur =
      (if idOfD t < nCols orig then
        if Node.ROOT ∈ ancList g t then (none, cur)
        else if (ancList g t).any (fun a => decide (nCols cur ≤ idOfD a)) then
          (none, cur)
        else fillFold g true orig ts
          (markMat cur (rowsWhere orig (idOfD t)) ((ancList g t).map idOfD))
      else (none, cur)) := by
  rw [fillFold, if_neg ht]
  rfl

theorem fillFold_fst_some (g : DiGraph) (copy : Bool) (orig : Mat) :
    ∀ ts cur r, (fillFold g copy orig ts cur).1 = some r →
      fillFold g copy orig ts cur = (some r, r) := by
  intro ts
  induction ts with
  | nil =>
    intro cur r h
    simp only [fillFold] at h ⊢
    cases h
    rfl
  | cons t ts ih =>
    intro cur r h
    by_cases ht : t = Node.ROOT
    · subst ht
      rw [fillFold_cons_root] at h ⊢
      exact ih cur r h
    · rw [fillFold_cons g copy orig ts cur ht] at h ⊢
      by_cases h1 : idOfD t < nCols (if copy then orig else cur)
      · rw [if_pos h1] at h ⊢
        by_cases h2 : Node.ROOT ∈ ancList g t
        · rw [if_pos h2] at h; simp at h
        · rw [if_neg h2] at h ⊢
          by_cases h3 : (ancList g t).any (fun a => decide (nCols cur ≤ idOfD a))
          · rw [if_pos h3] at h; simp at h
          · rw [if_neg h3] at h ⊢
            exact ih _ r h
      · rw [if_neg h1] at h; simp at h

theorem fillFold_shape (g : DiGraph) (copy : Bool) (orig : Mat) :
    ∀ ts cur, (fillFold g copy orig ts cur).2.length = cur.length ∧
      ∀ j, (((fillFold g copy orig ts cur).2.getD j []).length =
        ((cur.getD j []).length)) := by
  intro ts
  induction ts with
  | nil => intro cur; exact ⟨rfl, fun j => rfl⟩
  | cons t ts ih =>
    intro cur
    by_cases ht : t = Node.ROOT
    · subst ht
      rw [fillFold_cons_root]
      exact ih cur
    · rw [fillFold_cons g copy orig ts cur ht]
      by_cases h1 : idOfD t < nCols (if copy then orig else cur)
      · rw [if_pos h1]
        by_cases h2 : Node.ROOT ∈ ancList g t
        · rw [if_pos h2]; exact ⟨rfl, fun j => rfl⟩
        · rw [if_neg h2]
          by_cases h3 : (ancList g t).any (fun a => decide (nCols cur ≤ idOfD a))
          · rw [if_pos h3]; exact ⟨rfl, fun j => rfl⟩
          · rw [if_neg h3]
            rcases ih (markMat cur (rowsWhere (if copy then orig else cur) (idOfD t))
              ((ancList g t).map idOfD)) with ⟨hl, hr⟩
            rw [markMat_length] at hl
            refine ⟨hl, fun j => ?_⟩
            rw [hr j, markMat_rowlen]
      · rw [if_neg h1]; exact ⟨rfl, fun j => rfl⟩

theorem markedAt_nil (g : DiGraph) (orig : Mat) (i c : Nat) :
    ¬ markedAt g orig [] i c := by
  rintro ⟨t, ht, _⟩
  simp at ht

theorem markedAt_cons {g : DiGraph} {orig : Mat} {t : Node} {ts : List Node}
    {i c : Nat} :
    markedAt g orig (t :: ts) i c ↔
      (t ≠ Node.ROOT ∧ i ∈ rowsWhere orig (idOfD t) ∧ c ∈ ancIds g t) ∨
        markedAt g orig ts i c := by
  constructor
  · rintro ⟨t', ht', hcond⟩
    rcases List.mem_cons.mp ht' with rfl | ht'
    · exact Or.inl hcond
    · exact Or.inr ⟨t', ht', hcond⟩
  · rintro (⟨h1, h2, h3⟩ | ⟨t', ht', hcond⟩)
    · exact ⟨t, List.mem_cons_self _ _, h1, h2, h3⟩
    · exact ⟨t', List.mem_cons_of_mem _ ht', hcond⟩

theorem fillFold_stepOK (g : DiGraph) (orig : Mat) :
    ∀ ts cur r, fillFold g true orig ts cur = (some r, r) →
      nCols cur = nCols orig →
      ∀ t ∈ ts, t ≠ Node.ROOT → stepOK g (nCols orig) t := by
  intro ts
  induction ts with
  | nil => intro cur r _ _ t ht; simp at ht
  | cons t ts ih =>
    intro cur r h hw t' ht' htR
    by_cases ht : t = Node.ROOT
    · subst ht
      rw [fillFold_cons_root] at h
      rcases List.mem_cons.mp ht' with rfl | ht'
      · exact absurd rfl htR
      · exact ih cur r h hw t' ht' htR
    · rw [fillFold_cons_true g orig ts cur ht] at h
      by_cases h1 : idOfD t < nCols orig
      · rw [if_pos h1] at h
        by_cases h2 : Node.ROOT ∈ ancList g t
        · rw [if_pos h2] at h; simp at h
        · rw [if_neg h2] at h
          by_cases h3 : (ancList g t).any (fun a => decide (nCols cur ≤ idOfD a))
          · rw [if_pos h3] at h; simp at h
          · rw [if_neg h3] at h
            have hbound : ∀ a ∈ ancList g t, idOfD a < nCols orig := by
              intro a ha
              rw [← hw]
              by_contra hcon
              refine h3 (List.any_eq_true.mpr ⟨a, ha, ?_⟩)
              simp only [decide_eq_true_eq]
              omega
            rcases List.mem_cons.mp ht' with rfl | ht'
            · exact ⟨h1, h2, hbound⟩
            · exact ih _ r h (by rw [nCols_markMat]; exact hw) t' ht' htR
      · rw [if_neg h1] at h; simp at h

theorem fillFold_of_stepOK (g : DiGraph) (orig : Mat) :
    ∀ ts cur, (∀ t ∈ ts, t ≠ Node.ROOT → stepOK g (nCols orig) t) →
      nCols cur = nCols orig →
      ∃ r, fillFold g true orig ts cur = (some r, r) := by
  intro ts
  induction ts with
  | nil => intro cur _ _; exact ⟨cur, rfl⟩
  | cons t ts ih =>
    intro cur hOK hw
    by_cases ht : t = Node.ROOT
    · subst ht
      rw [fillFold_cons_root]
      exact ih cur (fun t' ht' => hOK t' (List.mem_cons_of_mem _ ht')) hw
    · rcases hOK t (List.mem_cons_self _ _) ht with ⟨h1, h2, h3⟩
      rw [fillFold_cons_true g orig ts cur ht, if_pos h1, if_neg h2,
        if_neg (by
          intro hany
          rcases List.any_eq_true.mp hany with ⟨a, ha, hle⟩
          have hb := h3 a ha
          rw [hw] at hle
          simp only [decide_eq_true_eq] at hle
          omega)]
      exact ih _ (fun t' ht' => hOK t' (List.mem_cons_of_mem _ ht'))
        (by rw [nCols_markMat]; exact hw)

theorem fillFold_entry (g : DiGraph) (orig : Mat) :
    ∀ ts cur r, fillFold g true orig ts cur = (some r, r) →
      cur.length = orig.length → nCols cur = nCols orig → RectI cur →
      ∀ i c,
        (markedAt g orig ts i c → getEntry r i c = 1) ∧
        (¬ markedAt g orig ts i c → getEntry r i c = getEntry cur i c) := by
  intro ts
  induction ts with
  | nil =>
    intro cur r h _ _ _ i c
    simp only [fillFold, Prod.mk.injEq] at h
    rcases h with ⟨h, _⟩
    cases h
    exact ⟨fun hm => absurd hm (markedAt_nil g orig i c), fun _ => rfl⟩
  | cons t ts ih =>
    intro cur r h hlen hw hrect i c
    by_cases ht : t = Node.ROOT
    · subst ht
      rw [fillFold_cons_root] at h
      have hm : markedAt g orig (Node.ROOT :: ts) i c ↔ markedAt g orig ts i c := by
        rw [markedAt_cons]
        simp
      rcases ih cur r h hlen hw hrect i c with ⟨ih1, ih2⟩
      exact ⟨fun hmk => ih1 (hm.mp hmk), fun hmk => ih2 (fun hx => hmk (hm.mpr hx))⟩
    · rw [fillFold_cons_true g orig ts cur ht] at h
      by_cases h1 : idOfD t < nCols orig
      · rw [if_pos h1] at h
        by_cases h2 : Node.ROOT ∈ ancList g t
        · rw [if_pos h2] at h; simp at h
        · rw [if_neg h2] at h
          by_cases h3 : (ancList g t).any (fun a => decide (nCols cur ≤ idOfD a))
          · rw [if_pos h3] at h; simp at h
          · rw [if_neg h3] at h
            set cur' := markMat cur (rowsWhere orig (idOfD t))
              ((ancList g t).map idOfD) with hcur'
            have hlen' : cur'.length = orig.length := by
              rw [hcur', markMat_length]; exact hlen
            have hw' : nCols cur' = nCols orig := by
              rw [hcur', nCols_markMat]; exact hw
            have hrect' : RectI cur' := by
              rw [hcur']
              exact rectI_markMat _ _ hrect
            rcases ih cur' r h hlen' hw' hrect' i c with ⟨ih1, ih2⟩
            have hcurcases : ∀ hin : i ∈ rowsWhere orig (idOfD t) ∧
                c ∈ ancIds g t,
                getEntry cur' i c = 1 := by
              rintro ⟨hrow, hanc⟩
              rw [hcur', getEntry_markMat, if_pos]
              refine ⟨hrow, hanc, ?_, ?_⟩
              · rw [hlen]
                exact ((mem_rowsWhere orig (idOfD t) i).mp hrow).1
              · rcases List.mem_map.mp hanc with ⟨a, ha, rfl⟩
                have hcb : idOfD a < nCols cur := by
                  by_contra hcon
                  refine h3 (List.any_eq_true.mpr ⟨a, ha, ?_⟩)
                  simp only [decide_eq_true_eq]
                  omega
                have hilt : i < cur.length := by
                  rw [hlen]
                  exact ((mem_rowsWhere orig (idOfD t) i).mp hrow).1
                rw [hrect i hilt]
                exact hcb
            constructor
            · intro hmk
              rcases markedAt_cons.mp hmk with ⟨_, hrow, hanc⟩ | hmk
              · by_cases hmk' : markedAt g orig ts i c
                · exact ih1 hmk'
                · rw [ih2 hmk']
                  exact hcurcases ⟨hrow, hanc⟩
              · exact ih1 hmk
            · intro hmk
              have hnotts : ¬ markedAt g orig ts i c := fun hx =>
                hmk (markedAt_cons.mpr (Or.inr hx))
              rw [ih2 hnotts, hcur', getEntry_markMat, if_neg]
              rintro ⟨hrow, hanc, _⟩
              exact hmk (markedAt_cons.mpr (Or.inl ⟨ht, hrow, hanc⟩))
      · rw [if_neg h1] at h; simp at h

theorem fillFold_entry_cases (g : DiGraph) (copy : Bool) (orig : Mat) :
    ∀ ts cur r, (fillFold g copy orig ts cur).1 = some r →
      ∀ i c, getEntry r i c = 1 ∨ getEntry r i c = getEntry cur i c := by
  intro ts
  induction ts with
  | nil =>
    intro cur r h i c
    simp only [fillFold] at h
    cases h
    exact Or.inr rfl
  | cons t ts ih =>
    intro cur r h i c
    by_cases ht : t = Node.ROOT
    · subst ht
      rw [fillFold_cons_root] at h
      exact ih cur r h i c
    · rw [fillFold_cons g copy orig ts cur ht] at h
      by_cases h1 : idOfD t < nCols (if copy then orig else cur)
      · rw [if_pos h1] at h
        by_cases h2 : Node.ROOT ∈ ancList g t
        · rw [if_pos h2] at h; simp at h
        · rw [if_neg h2] at h
          by_cases h3 : (ancList g t).any (fun a => decide (nCols cur ≤ idOfD a))
          · rw [if_pos h3] at h; simp at h
          · rw [if_neg h3] at h
            rcases ih _ r h i c with h' | h'
            · exact Or.inl h'
            · rw [h']
              rcases getEntry_markMat_cases cur
                (rowsWhere (if copy then orig else cur) (idOfD t))
                ((ancList g t).map idOfD) i c with h'' | h''
              · exact Or.inl h''
              · exact Or.inr h''
      · rw [if_neg h1] at h; simp at h

/-! ### Ancestor-list characterization under a successful fill -/

theorem reachesRoot_rtg (g : DiGraph) :
    ∀ f n, reachesRoot g f n = true →
      Relation.ReflTransGen (Step (reverse g)) n Node.ROOT := by
  intro f
  induction f with
  | zero => intro n h; simp [reachesRoot] at h
  | succ f ih =>
    intro n h
    rw [reachesRoot] at h
    by_cases hn : n = Node.ROOT
    · subst hn
      exact Relation.ReflTransGen.refl
    · rw [if_neg hn] at h
      rcases List.any_eq_true.mp h with ⟨p, hp, hrec⟩
      have hstep : Step (reverse g) n p :=
        step_reverse.mpr (mem_parentsList.mp hp)
      exact Relation.ReflTransGen.head hstep (ih p hrec)

theorem mem_dropLast_iff {l : List Node} {r : Node} (hr : r ∈ l)
    (hnd : r ∉ l.dropLast) :
    ∀ x, x ∈ l.dropLast ↔ (x ∈ l ∧ x ≠ r) := by
  have hne : l ≠ [] := by rintro rfl; simp at hr
  have hdecomp : l.dropLast ++ [l.getLast hne] = l := List.dropLast_append_getLast hne
  have hlast : l.getLast hne = r := by
    have hr' : r ∈ l.dropLast ++ [l.getLast hne] := by rw [hdecomp]; exact hr
    rcases List.mem_append.mp hr' with h | h
    · exact absurd h hnd
    · exact (List.mem_singleton.mp h).symm
  intro x
  constructor
  · intro hx
    refine ⟨by rw [← hdecomp]; exact List.mem_append_left _ hx, ?_⟩
    rintro rfl
    exact hnd hx
  · rintro ⟨hxl, hxr⟩
    have hx' : x ∈ l.dropLast ++ [l.getLast hne] := by rw [hdecomp]; exact hxl
    rcases List.mem_append.mp hx' with h | h
    · exact h
    · exact absurd ((List.mem_singleton.mp h).trans hlast) hxr

theorem anc_mem_iff {g : DiGraph} (hE : edgeClosed g) {t : Node}
    (ht : t ∈ g.nodes)
    (hreach : Relation.ReflTransGen (Step (reverse g)) t Node.ROOT)
    (hOK : Node.ROOT ∉ ancList g t) :
    ∀ x, x ∈ ancList g t ↔
      (Relation.ReflTransGen (Step (reverse g)) t x ∧ x ≠ Node.ROOT) := by
  have hE' := edgeClosed_reverse hE
  have ht' : t ∈ (reverse g).nodes := ht
  have hspec := bfsOrder_spec hE' ht'
  have hrootmem : Node.ROOT ∈ bfsOrder (reverse g) t :=
    bfsOrder_complete hE' ht' hreach
  intro x
  unfold ancList at hOK ⊢
  rw [mem_dropLast_iff hrootmem hOK x]
  constructor
  · rintro ⟨hx, hxr⟩
    exact ⟨hspec.2.2.1 x hx, hxr⟩
  · rintro ⟨hx, hxr⟩
    exact ⟨bfsOrder_complete hE' ht' hx, hxr⟩

theorem mem_ancIds_iff {g : DiGraph} {t : Node}
    (hOK : Node.ROOT ∉ ancList g t) (c : Nat) :
    c ∈ ancIds g t ↔ Node.id c ∈ ancList g t := by
  unfold ancIds
  constructor
  · intro h
    rcases List.mem_map.mp h with ⟨a, ha, hc⟩
    cases a with
    | ROOT => exact absurd ha hOK
    | id k =>
      simp only [idOfD] at hc
      subst hc
      exact ha
  · intro h
    exact List.mem_map.mpr ⟨Node.id c, h, rfl⟩

theorem fill_ancestors_eq_fold (y : Mat) (g : DiGraph) (copy : Bool) :
    fill_ancestors y g copy = (fillFold g copy y g.nodes y).1 := rfl

theorem fill_spec {g : DiGraph} {y m : Mat} (hrect : Rect y)
    (hm : fill_ancestors y g true = some m) :
    (m.length = y.length ∧ nCols m = nCols y ∧ RectI m) ∧
    (∀ t ∈ g.nodes, t ≠ Node.ROOT → stepOK g (nCols y) t) ∧
    (∀ i c, (markedAt g y g.nodes i c → getEntry m i c = 1) ∧
      (¬ markedAt g y g.nodes i c → getEntry m i c = getEntry y i c)) := by
  rw [fill_ancestors_eq_fold] at hm
  have hfold : fillFold g true y g.nodes y = (some m, m) :=
    fillFold_fst_some g true y g.nodes y m hm
  have hshape := fillFold_shape g true y g.nodes y
  rw [hfold] at hshape
  have hlen : m.length = y.length := hshape.1
  have hrowlen : ∀ j, ((m.getD j []).length = ((y.getD j []).length)) := hshape.2
  have hw : nCols m = nCols y := by
    unfold nCols
    exact hrowlen 0
  have hrectI : RectI m := by
    intro i hi
    rw [hrowlen i, hw]
    exact rectI_of_rect hrect i (by rw [← hlen]; exact hi)
  refine ⟨⟨hlen, hw, hrectI⟩, ?_, ?_⟩
  · exact fillFold_stepOK g y g.nodes y m hfold rfl
  · exact fillFold_entry g y g.nodes y m hfold rfl rfl (rectI_of_rect hrect)

theorem markedAt_iff_rtg {g : DiGraph} {y : Mat} (hE : edgeClosed g)
    (hinv : rootedAll g)
    (hOKall : ∀ t ∈ g.nodes, t ≠ Node.ROOT → stepOK g (nCols y) t) (i c : Nat) :
    markedAt g y g.nodes i c ↔
      ∃ t ∈ g.nodes, t ≠ Node.ROOT ∧
        Relation.ReflTransGen (Step g) (Node.id c) t ∧
        i < y.length ∧ 0 < getEntry y i (idOfD t) := by
  constructor
  · rintro ⟨t, htm, htR, hrow, hanc⟩
    have hOK := hOKall t htm htR
    have hrowm := (mem_rowsWhere y (idOfD t) i).mp hrow
    have hreach := reachesRoot_rtg g _ t (hinv t htm)
    have hcm : Node.id c ∈ ancList g t := (mem_ancIds_iff hOK.2.1 c).mp hanc
    have hrtg := ((anc_mem_iff hE htm hreach hOK.2.1 (Node.id c)).mp hcm).1
    exact ⟨t, htm, htR, rtg_reverse.mp hrtg, hrowm.1, hrowm.2⟩
  · rintro ⟨t, htm, htR, hrtg, hi, hpos⟩
    have hOK := hOKall t htm htR
    have hreach := reachesRoot_rtg g _ t (hinv t htm)
    have hcm : Node.id c ∈ ancList g t :=
      (anc_mem_iff hE htm hreach hOK.2.1 (Node.id c)).mpr
        ⟨rtg_reverse.mpr hrtg, by simp⟩
    exact ⟨t, htm, htR, (mem_rowsWhere y (idOfD t) i).mpr ⟨hi, hpos⟩,
      (mem_ancIds_iff hOK.2.1 c).mpr hcm⟩

theorem binary_entry {m : Mat} (h : Binary m) (i c : Nat) : getEntry m i c ≤ 1 := by
  unfold getEntry
  by_cases hi : i < m.length
  · by_cases hc : c < (m.getD i []).length
    · exact h _ (getD_mem m [] i hi) _ (getD_mem _ 0 c hc)
    · rw [List.getD_eq_default _ _ (Nat.le_of_not_lt hc)]
      omega
  · rw [List.getD_eq_default _ _ (Nat.le_of_not_lt hi)]
    simp

theorem fill_entry_one_iff {g : DiGraph} {y m : Mat} (hE : edgeClosed g)
    (hinv : rootedAll g) (hrect : Rect y) (hbin : Binary y)
    (hm : fill_ancestors y g true = some m) (i c : Nat) (hi : i < y.length) :
    getEntry m i c = 1 ↔
      (getEntry y i c = 1 ∨ ∃ t ∈ g.nodes, t ≠ Node.ROOT ∧
        Relation.ReflTransGen (Step g) (Node.id c) t ∧
        getEntry y i (idOfD t) = 1) := by
  obtain ⟨_, hOKall, hentry⟩ := fill_spec hrect hm
  rcases hentry i c with ⟨h1, h2⟩
  have hmk := markedAt_iff_rtg hE hinv hOKall i c
  by_cases hmkc : markedAt g y g.nodes i c
  · rw [h1 hmkc]
    constructor
    · intro _
      rcases hmk.mp hmkc with ⟨t, htm, htR, hrtg, _, hpos⟩
      have hle := binary_entry hbin i (idOfD t)
      exact Or.inr ⟨t, htm, htR, hrtg, by omega⟩
    · intro _; rfl
  · rw [h2 hmkc]
    constructor
    · exact fun hy => Or.inl hy
    · rintro (hy | ⟨t, htm, htR, hrtg, hpos⟩)
      · exact hy
      · exact absurd (hmk.mpr ⟨t, htm, htR, hrtg, hi, by omega⟩) hmkc

theorem marked_closure {g : DiGraph} {y m : Mat} (hE : edgeClosed g)
    (hinv : rootedAll g) (hrect : Rect y)
    (hm : fill_ancestors y g true = some m) :
    ∀ i c, markedAt g m g.nodes i c → getEntry m i c = 1 := by
  obtain ⟨⟨hlen, hw, hrectI⟩, hOKall, hentry⟩ := fill_spec hrect hm
  rintro i c ⟨t, htm, htR, hrow, hanc⟩
  have hrowm := (mem_rowsWhere m (idOfD t) i).mp hrow
  rcases hentry i (idOfD t) with ⟨e1, e2⟩
  by_cases hmk : markedAt g y g.nodes i (idOfD t)
  · rcases hmk with ⟨s, hsm, hsR, hrow_y, hanc_s⟩
    have hOKs := hOKall s hsm hsR
    have hOKt := hOKall t htm htR
    have ht' : Node.id (idOfD t) = t := by
      cases t with
      | ROOT => exact absurd rfl htR
      | id k => rfl
    have hts : t ∈ ancList g s := by
      have h := (mem_ancIds_iff hOKs.2.1 (idOfD t)).mp hanc_s
      rw [ht'] at h
      exact h
    have hreach_s := reachesRoot_rtg g _ s (hinv s hsm)
    have hreach_t := reachesRoot_rtg g _ t (hinv t htm)
    have hrtg_st := ((anc_mem_iff hE hsm hreach_s hOKs.2.1 t).mp hts).1
    have hcm : Node.id c ∈ ancList g t := (mem_ancIds_iff hOKt.2.1 c).mp hanc
    have hrtg_tc := (anc_mem_iff hE htm hreach_t hOKt.2.1 (Node.id c)).mp hcm
    have hrtg_sc : Relation.ReflTransGen (Step (reverse g)) s (Node.id c) :=
      hrtg_st.trans hrtg_tc.1
    have hcs : Node.id c ∈ ancList g s :=
      (anc_mem_iff hE hsm hreach_s hOKs.2.1 (Node.id c)).mpr ⟨hrtg_sc, by simp⟩
    exact (hentry i c).1
      ⟨s, hsm, hsR, hrow_y, (mem_ancIds_iff hOKs.2.1 c).mpr hcs⟩
  · have hypos : 0 < getEntry y i (idOfD t) := by
      have h := e2 hmk
      omega
    exact (hentry i c).1 ⟨t, htm, htR,
      (mem_rowsWhere y (idOfD t) i).mpr ⟨by rw [← hlen]; exact hrowm.1, hypos⟩, hanc⟩

theorem fill_idem_aux {g : DiGraph} {y m : Mat} (hE : edgeClosed g)
    (hinv : rootedAll g) (hrect : Rect y)
    (hm : fill_ancestors y g true = some m) :
    ∃ m', fill_ancestors m g true = some m' ∧ m'.length = m.length ∧
      ∀ i c, getEntry m' i c = getEntry m i c := by
  obtain ⟨⟨hlen, hw, hrectI⟩, hOKall, _⟩ := fill_spec hrect hm
  have hOKall' : ∀ t ∈ g.nodes, t ≠ Node.ROOT → stepOK g (nCols m) t := by
    intro t htm htR
    rw [hw]
    exact hOKall t htm htR
  obtain ⟨m', hm'⟩ := fillFold_of_stepOK g m g.nodes m hOKall' rfl
  refine ⟨m', by rw [fill_ancestors_eq_fold, hm'], ?_, ?_⟩
  · have hshape := fillFold_shape g true m g.nodes m
    rw [hm'] at hshape
    exact hshape.1
  · intro i c
    rcases fillFold_entry g m g.nodes m m' hm' rfl rfl hrectI i c with ⟨e1, e2⟩
    by_cases hmk : markedAt g m g.nodes i c
    · rw [e1 hmk]
      exact (marked_closure hE hinv hrect hm i c hmk).symm
    · exact e2 hmk

/-! ### Metric lemmas -/

theorem rowBoth_comm (p : Nat × Nat → Bool)
    (hp : ∀ a b, p (a, b) = p (b, a)) :
    ∀ r1 r2 : List Nat, ((r1.zip r2).filter p).length = ((r2.zip r1).filter p).length := by
  intro r1
  induction r1 with
  | nil => intro r2; cases r2 <;> rfl
  | cons x xs ih =>
    intro r2
    cases r2 with
    | nil => rfl
    | cons y ys =>
      simp only [List.zip_cons_cons, List.filter_cons, hp x y]
      cases p (y, x) <;> simp [ih ys]

theorem countBoth_comm (a b : Mat) : countBoth a b = countBoth b a := by
  unfold countBoth
  induction a generalizing b with
  | nil => cases b <;> rfl
  | cons r rs ih =>
    cases b with
    | nil => rfl
    | cons s ss =>
      simp only [List.zip_cons_cons, List.map_cons, List.sum_cons]
      rw [ih ss, rowBoth_comm]
      intro x y
      simp [Bool.and_comm]

theorem h_precision_eq {y_true y_pred : Mat} {g : DiGraph} {t_ p_ : Mat}
    (ht : fill_ancestors y_true g true = some t_)
    (hp : fill_ancestors y_pred g true = some p_) :
    h_precision_score y_true y_pred g =
      if countNonzero p_ = 0 then none
      else some ((countBoth t_ p_ : ℚ) / (countNonzero p_ : ℚ)) := by
  unfold h_precision_score
  rw [ht, hp]

theorem h_recall_eq {y_true y_pred : Mat} {g : DiGraph} {t_ p_ : Mat}
    (ht : fill_ancestors y_true g true = some t_)
    (hp : fill_ancestors y_pred g true = some p_) :
    h_recall_score y_true y_pred g =
      if countNonzero t_ = 0 then none
      else some ((countBoth t_ p_ : ℚ) / (countNonzero t_ : ℚ)) := by
  unfold h_recall_score
  rw [ht, hp]

theorem h_fbeta_eq {y_true y_pred : Mat} {g : DiGraph} {beta hP hR : ℚ}
    (hp : h_precision_score y_true y_pred g = some hP)
    (hr : h_recall_score y_true y_pred g = some hR) :
    h_fbeta_score y_true y_pred g beta =
      if beta ^ 2 * hP + hR = 0 then none
      else some ((1 + beta ^ 2) * hP * hR / (beta ^ 2 * hP + hR)) := by
  unfold h_fbeta_score
  rw [hp, hr]

theorem h_swap (a b : Mat) (g : DiGraph) :
    h_precision_score a b g = h_recall_score b a g := by
  cases hta : fill_ancestors a g true with
  | none =>
    cases htb : fill_ancestors b g true with
    | none =>
      unfold h_precision_score h_recall_score
      rw [hta, htb]
    | some p_ =>
      unfold h_precision_score h_recall_score
      rw [hta, htb]
  | some t_ =>
    cases htb : fill_ancestors b g true with
    | none =>
      unfold h_precision_score h_recall_score
      rw [hta, htb]
    | some p_ =>
      rw [h_precision_eq hta htb, h_recall_eq htb hta, countBoth_comm]

/-! ### Concrete instances -/

/-- The chain hierarchy `Root -> A -> B` with `A = 0`, `B = 1`. -/
def gC8 : DiGraph :=
  ⟨[Node.ROOT, Node.id 0, Node.id 1],
   [(Node.ROOT, Node.id 0), (Node.id 0, Node.id 1)]⟩

/-- One sample whose true label set is `{B}`. -/
def ytC8 : Mat := [[0, 1]]

/-- One sample whose predicted label set is `{A}`. -/
def ypC8 : Mat := [[1, 0]]

/-- A rooted DAG hierarchy: `Root -> A`, `Root -> B`, `B -> C`, `C -> A`
(with `A = 0`, `B = 1`, `C = 2`). Every node reaches the Root upward, yet
from `A` the unique farthest node of the reversed-graph traversal is `B`, not
the Root: the Root sits at distance 1 while `B` sits at distance 2. -/
def gDiamond : DiGraph :=
  ⟨[Node.ROOT, Node.id 0, Node.id 1, Node.id 2],
   [(Node.ROOT, Node.id 0), (Node.ROOT, Node.id 1),
    (Node.id 1, Node.id 2), (Node.id 2, Node.id 0)]⟩

/-- One sample labelled `{A}` over the diamond hierarchy. -/
def yD : Mat := [[1, 0, 0]]

/-- The flat hierarchy `Root -> A`, `Root -> B`. -/
def gTwo : DiGraph :=
  ⟨[Node.ROOT, Node.id 0, Node.id 1],
   [(Node.ROOT, Node.id 0), (Node.ROOT, Node.id 1)]⟩

/-- One sample with no labels at all. -/
def yZero : Mat := [[0, 0]]

/-- One sample labelled `{A}` over `gTwo`. -/
def yLeft : Mat := [[1, 0]]

/-- One sample labelled `{B}` over `gTwo`. -/
def yRight : Mat := [[0, 1]]

theorem getLast?_mem_dropLast {L : List Node} {r : Node} (hnd : L.Nodup)
    (hlast : L.getLast? = some r) : r ∈ L ∧ r ∉ L.dropLast := by
  cases L with
  | nil => simp at hlast
  | cons a l =>
    have hne : (a :: l) ≠ [] := by simp
    rw [List.getLast?_eq_getLast_of_ne_nil hne, Option.some.injEq] at hlast
    have hdecomp := List.dropLast_append_getLast hne
    constructor
    · rw [← hdecomp, ← hlast]
      exact List.mem_append_right _ (List.mem_singleton_self _)
    · intro hmem
      have hnd' : ((a :: l).dropLast ++ [(a :: l).getLast hne]).Nodup := by
        rw [hdecomp]
        exact hnd
      obtain ⟨_, _, hdisj⟩ := List.nodup_append.mp hnd'
      exact hdisj hmem (by rw [hlast]; exact List.mem_singleton_self _)

/-! ### Claim theorems -/

/-- C1 (counterexample). On the rooted DAG hierarchy `gDiamond` — a legitimate
hierarchy graph (edge-closed, every node with an upward path to the Root)
whose non-root nodes all have columns in the one-sample binary matrix `yD` —
`fill_ancestors` raises instead of returning a matrix: for target `A` the
stripped reachability enumeration still contains the Root sentinel, which has
no column, so no matrix with the claimed output guarantee is returned. -/
theorem fill_output_counterexample :
    edgeClosed gDiamond ∧ rootedAll gDiamond ∧ Rect yD ∧ Binary yD ∧
      (∀ n ∈ gDiamond.nodes, n ≠ Node.ROOT → idOfD n < nCols yD) ∧
      fill_ancestors yD gDiamond true = none := by
  refine ⟨by decide, by decide, by decide, by decide, by decide, by decide⟩

/-- C1 (amended). For every binary rectangular label matrix `y` and rooted
hierarchy graph `g` satisfying the precondition, *whenever `fill_ancestors`
returns a matrix*, that matrix has a 1 in column `c` of row `i` exactly when
row `i` of `y` already had a 1 in `c`, or row `i` of `y` has a 1 in the column
of some node reachable downward from node `c`; the Root has no column and its
propagation is excluded. -/
theorem fill_output_amended {g : DiGraph} {y m : Mat} (hE : edgeClosed g)
    (hinv : rootedAll g) (hrect : Rect y) (hbin : Binary y)
    (hm : fill_ancestors y g true = some m) :
    ∀ i, i < y.length → ∀ c,
      (getEntry m i c = 1 ↔
        (getEntry y i c = 1 ∨ ∃ t ∈ g.nodes, t ≠ Node.ROOT ∧
          Relation.ReflTransGen (Step g) (Node.id c) t ∧
          getEntry y i (idOfD t) = 1)) :=
  fun i hi c => fill_entry_one_iff hE hinv hrect hbin hm i c hi

/-- Witness for C1 (amended), on the chain `Root -> A -> B` with the true
label set `{B}` filling to `{A, B}`. -/
theorem fill_output_amended_witness :
    getEntry [[1, 1]] 0 0 = 1 ↔
      (getEntry ytC8 0 0 = 1 ∨ ∃ t ∈ gC8.nodes, t ≠ Node.ROOT ∧
        Relation.ReflTransGen (Step gC8) (Node.id 0) t ∧
        getEntry ytC8 0 (idOfD t) = 1) :=
  fill_output_amended (by decide) (by decide) (by decide) (by decide)
    (by decide) 0 (by decide) 0

/-- C2 (counterexample). On the rooted DAG hierarchy `gDiamond`, for the
non-root target `A`, the Root is *not* the node at maximum distance in the
reversed-graph reachability enumeration: the enumeration is
`[A, Root, C, B]`, so stripping the last element removes the true ancestor
`B` and keeps the Root. -/
theorem root_last_counterexample :
    edgeClosed gDiamond ∧ rootedAll gDiamond ∧ Node.id 0 ∈ gDiamond.nodes ∧
      Node.id 0 ≠ Node.ROOT ∧
      bfsOrder (reverse gDiamond) (Node.id 0) =
        [Node.id 0, Node.ROOT, Node.id 2, Node.id 1] ∧
      (bfsOrder (reverse gDiamond) (Node.id 0)).getLast? ≠ some Node.ROOT ∧
      Node.ROOT ∈ ancList gDiamond (Node.id 0) := by
  refine ⟨by decide, by decide, by decide, by decide, by decide, by decide,
    by decide⟩

/-- C2 (amended). In a *tree* hierarchy (every non-root node with exactly one
parent and an upward chain to the Root, the Root parentless), the reversed
reachability enumeration of every non-root node is exactly its parent chain,
whose last element is the Root; stripping the last element therefore removes
exactly the Root, and the stripped list retains precisely the true ancestors
(the node itself included, the Root excluded). -/
theorem root_last_amended {g : DiGraph} (hT : Tree g) :
    ∀ n ∈ g.nodes, n ≠ Node.ROOT →
      ∃ L, upChain g (g.nodes.length + 1) n = some L ∧
        bfsOrder (reverse g) n = L ∧
        (bfsOrder (reverse g) n).getLast? = some Node.ROOT ∧
        Node.ROOT ∉ ancList g n ∧
        (∀ x, x ∈ ancList g n ↔ (x ∈ L ∧ x ≠ Node.ROOT)) := by
  intro n hn _
  obtain ⟨L, hL, hbfs⟩ := tree_bfs hT n hn
  have hlast : L.getLast? = some Node.ROOT := upChain_last g _ n L hL
  have hnd := upChain_nodup g _ n L hL
  obtain ⟨hrootL, hrootD⟩ := getLast?_mem_dropLast hnd hlast
  have hanc : ancList g n = L.dropLast := by
    unfold ancList
    rw [hbfs]
  refine ⟨L, hL, hbfs, by rw [hbfs]; exact hlast, by rw [hanc]; exact hrootD, ?_⟩
  intro x
  rw [hanc]
  exact mem_dropLast_iff hrootL hrootD x

/-- Witness for C2 (amended) on the chain `Root -> A -> B` at node `B`. -/
theorem root_last_amended_witness :
    ∃ L, upChain gC8 (gC8.nodes.length + 1) (Node.id 1) = some L ∧
      bfsOrder (reverse gC8) (Node.id 1) = L ∧
      (bfsOrder (reverse gC8) (Node.id 1)).getLast? = some Node.ROOT ∧
      Node.ROOT ∉ ancList gC8 (Node.id 1) ∧
      (∀ x, x ∈ ancList gC8 (Node.id 1) ↔ (x ∈ L ∧ x ≠ Node.ROOT)) :=
  root_last_amended (by decide) (Node.id 1) (by decide) (by decide)

/-- C3. The hierarchy graph the caller supplied is returned untouched by
`fill_ancestors` for every matrix and copy flag (in networkx 2.x,
`reverse(copy=False)` is a non-mutating view, and the two applications of the
reversal cancel: reversing twice is the identity on the adjacency). -/
theorem graph_unchanged (y : Mat) (g : DiGraph) (copy : Bool) :
    (fill_ancestors_full y g copy).2.2 = g ∧ reverse (reverse g) = g :=
  ⟨rfl, reverse_reverse g⟩

/-- C4. With `copy=True` (the default) the caller's matrix is left entirely
unchanged; with `copy=False` the caller's matrix after the call is exactly
the returned matrix (the write target is the caller's object); in both modes
the graph is unchanged. -/
theorem copy_semantics (y : Mat) (g : DiGraph) (m : Mat)
    (h : (fill_ancestors_full y g false).1 = some m) :
    (fill_ancestors_full y g true).2.1 = y ∧
      (fill_ancestors_full y g false).2.1 = m ∧
      (∀ copy, (fill_ancestors_full y g copy).2.2 = g) := by
  refine ⟨rfl, ?_, fun _ => rfl⟩
  have hfold := fillFold_fst_some g false y g.nodes y m h
  show (fillFold g false y g.nodes y).2 = m
  rw [hfold]

/-- Witness for C4 on the chain `Root -> A -> B` with the predicted labels
`{A}`, whose in-place fill is `[[1, 0]]`. -/
theorem copy_semantics_witness :
    (fill_ancestors_full ypC8 gC8 true).2.1 = ypC8 ∧
      (fill_ancestors_full ypC8 gC8 false).2.1 = [[1, 0]] ∧
      (∀ copy, (fill_ancestors_full ypC8 gC8 copy).2.2 = gC8) :=
  copy_semantics ypC8 gC8 [[1, 0]] (by decide)

/-- C5. Ancestor filling is idempotent: on every binary rectangular matrix
and rooted hierarchy graph (the data-model invariant: every node has an
upward path to the Root) on which `fill_ancestors` returns a matrix `m`,
applying `fill_ancestors` to `m` returns a matrix equal to `m`
element-wise. -/
theorem fill_idempotent {g : DiGraph} {y m : Mat} (hE : edgeClosed g)
    (hinv : rootedAll g) (hrect : Rect y) (hbin : Binary y)
    (hm : fill_ancestors y g true = some m) :
    ∃ m', fill_ancestors m g true = some m' ∧ m'.length = m.length ∧
      ∀ i c, getEntry m' i c = getEntry m i c :=
  fill_idem_aux hE hinv hrect hm

/-- Witness for C5 on the chain `Root -> A -> B` with the filled true matrix
`[[1, 1]]`. -/
theorem fill_idempotent_witness :
    ∃ m', fill_ancestors [[1, 1]] gC8 true = some m' ∧
      m'.length = ([[1, 1]] : Mat).length ∧
      ∀ i c, getEntry m' i c = getEntry [[1, 1]] i c :=
  @fill_idempotent gC8 ytC8 [[1, 1]] (by decide) (by decide) (by decide)
    (by decide) (by decide)

/-- C6. For every binary matrix `y` and hierarchy graph `g` on which
`fill_ancestors` (default copy) returns a matrix `m`, `m` is element-wise at
least `y`, stays binary, and in particular keeps every original positive
(self-inclusion). -/
theorem fill_monotone {g : DiGraph} {y m : Mat} (hbin : Binary y)
    (hm : fill_ancestors y g true = some m) :
    ∀ i c, getEntry y i c ≤ getEntry m i c ∧ getEntry m i c ≤ 1 ∧
      (getEntry y i c = 1 → getEntry m i c = 1) := by
  intro i c
  rw [fill_ancestors_eq_fold] at hm
  rcases fillFold_entry_cases g true y g.nodes y m hm i c with h | h
  · have hb := binary_entry hbin i c
    exact ⟨by omega, by omega, fun _ => h⟩
  · rw [h]
    exact ⟨le_refl _, binary_entry hbin i c, fun hy => hy⟩

/-- Witness for C6 on the chain `Root -> A -> B` with true labels `{B}`
filling to `[[1, 1]]`, at entry `(0, 1)` (the originally assigned node). -/
theorem fill_monotone_witness :
    getEntry ytC8 0 1 ≤ getEntry [[1, 1]] 0 1 ∧ getEntry [[1, 1]] 0 1 ≤ 1 ∧
      (getEntry ytC8 0 1 = 1 → getEntry [[1, 1]] 0 1 = 1) :=
  @fill_monotone gC8 ytC8 [[1, 1]] (by decide) (by decide) 0 1

/-- C7. None of the metric functions guards its denominator: when the filled
predicted matrix has no nonzero entry, `h_precision_score` raises (returns no
value) instead of producing a default; when the filled true matrix has none,
`h_recall_score` raises; and when `beta^2 * hP + hR = 0`, `h_fbeta_score`
raises. -/
theorem degenerate_denominator (yt yp : Mat) (g : DiGraph) (β : ℚ) :
    (∀ p_, fill_ancestors yp g true = some p_ → countNonzero p_ = 0 →
      h_precision_score yt yp g = none) ∧
    (∀ t_, fill_ancestors yt g true = some t_ → countNonzero t_ = 0 →
      h_recall_score yt yp g = none) ∧
    (∀ hP hR, h_precision_score yt yp g = some hP →
      h_recall_score yt yp g = some hR → β ^ 2 * hP + hR = 0 →
      h_fbeta_score yt yp g β = none) := by
  refine ⟨?_, ?_, ?_⟩
  · intro p_ hp hz
    cases hta : fill_ancestors yt g true with
    | none =>
      unfold h_precision_score
      rw [hta, hp]
    | some t_ =>
      rw [h_precision_eq hta hp, if_pos hz]
  · intro t_ ht hz
    cases htb : fill_ancestors yp g true with
    | none =>
      unfold h_recall_score
      rw [ht, htb]
    | some p_ =>
      rw [h_recall_eq ht htb, if_pos hz]
  · intro hP hR hp hr hz
    rw [h_fbeta_eq hp hr, if_pos hz]

/-- Witness for C7: empty predictions and empty ground truth make precision
and recall raise; a disjoint true/predicted pair on `Root -> A`, `Root -> B`
gives `hP = hR = 0`, making F-beta raise. -/
theorem degenerate_denominator_witness :
    h_precision_score yZero yZero gC8 = none ∧
      h_recall_score yZero yZero gC8 = none ∧
      h_fbeta_score yLeft yRight gTwo 1 = none := by
  have hZ : fill_ancestors yZero gC8 true = some [[0, 0]] := by decide
  have hL : fill_ancestors yLeft gTwo true = some [[1, 0]] := by decide
  have hR : fill_ancestors yRight gTwo true = some [[0, 1]] := by decide
  have hp0 : h_precision_score yLeft yRight gTwo = some 0 := by
    rw [h_precision_eq hL hR]
    have h1 : countBoth [[1, 0]] [[0, 1]] = 0 := by decide
    have h2 : countNonzero [[0, 1]] = 1 := by decide
    rw [h1, h2]
    norm_num
  have hr0 : h_recall_score yLeft yRight gTwo = some 0 := by
    rw [h_recall_eq hL hR]
    have h1 : countBoth [[1, 0]] [[0, 1]] = 0 := by decide
    have h2 : countNonzero [[1, 0]] = 1 := by decide
    rw [h1, h2]
    norm_num
  refine ⟨?_, ?_, ?_⟩
  · exact (degenerate_denominator yZero yZero gC8 1).1 [[0, 0]] hZ (by decide)
  · exact (degenerate_denominator yZero yZero gC8 1).2.1 [[0, 0]] hZ (by decide)
  · exact (degenerate_denominator yLeft yRight gTwo 1).2.2 0 0 hp0 hr0
      (by norm_num)

/-- C8. On the hierarchy `Root -> A -> B` with one sample, true labels `{B}`
and predicted labels `{A}`: the filled true row is `{A, B}`, the filled
predicted row is `{A}`, and the metrics are `hP = 1`, `hR = 1/2`,
`hF1 = 2/3`. -/
theorem ancestor_credit_case :
    fill_ancestors ytC8 gC8 true = some [[1, 1]] ∧
      fill_ancestors ypC8 gC8 true = some [[1, 0]] ∧
      h_precision_score ytC8 ypC8 gC8 = some 1 ∧
      h_recall_score ytC8 ypC8 gC8 = some (1 / 2) ∧
      h_fbeta_score ytC8 ypC8 gC8 1 = some (2 / 3) := by
  have h1 : fill_ancestors ytC8 gC8 true = some [[1, 1]] := by decide
  have h2 : fill_ancestors ypC8 gC8 true = some [[1, 0]] := by decide
  have hb : countBoth [[1, 1]] [[1, 0]] = 1 := by decide
  have hn1 : countNonzero [[1, 0]] = 1 := by decide
  have hn2 : countNonzero [[1, 1]] = 2 := by decide
  have hp : h_precision_score ytC8 ypC8 gC8 = some 1 := by
    rw [h_precision_eq h1 h2, hb, hn1]
    norm_num
  have hr : h_recall_score ytC8 ypC8 gC8 = some (1 / 2) := by
    rw [h_recall_eq h1 h2, hb, hn2]
    norm_num
  refine ⟨h1, h2, hp, hr, ?_⟩
  rw [h_fbeta_eq hp hr]
  norm_num

/-- C9. For all inputs on which precision and recall return values `p` and
`r` with `beta^2 * p + r` nonzero, `h_fbeta_score` returns exactly
`(1 + beta^2) * p * r / (beta^2 * p + r)`, and with `beta = 1` this is the
balanced F1 form `2 * p * r / (p + r)`. -/
theorem fbeta_formula (yt yp : Mat) (g : DiGraph) (β p r : ℚ)
    (hp : h_precision_score yt yp g = some p)
    (hr : h_recall_score yt yp g = some r) (hd : β ^ 2 * p + r ≠ 0) :
    h_fbeta_score yt yp g β = some ((1 + β ^ 2) * p * r / (β ^ 2 * p + r)) ∧
      (β = 1 → h_fbeta_score yt yp g 1 = some (2 * p * r / (p + r))) := by
  constructor
  · rw [h_fbeta_eq hp hr, if_neg hd]
  · rintro rfl
    rw [h_fbeta_eq hp hr, if_neg (by simpa using hd)]
    norm_num

/-- Witness for C9 on the ancestor-credit instance (`p = 1`, `r = 1/2`,
`beta = 1`). -/
theorem fbeta_formula_witness :
    h_fbeta_score ytC8 ypC8 gC8 1 =
        some ((1 + 1 ^ 2) * 1 * (1 / 2) / (1 ^ 2 * 1 + 1 / 2)) ∧
      ((1 : ℚ) = 1 → h_fbeta_score ytC8 ypC8 gC8 1 =
        some (2 * 1 * (1 / 2) / (1 + 1 / 2))) := by
  have h1 : fill_ancestors ytC8 gC8 true = some [[1, 1]] := by decide
  have h2 : fill_ancestors ypC8 gC8 true = some [[1, 0]] := by decide
  have hb : countBoth [[1, 1]] [[1, 0]] = 1 := by decide
  have hn1 : countNonzero [[1, 0]] = 1 := by decide
  have hn2 : countNonzero [[1, 1]] = 2 := by decide
  have hp : h_precision_score ytC8 ypC8 gC8 = some 1 := by
    rw [h_precision_eq h1 h2, hb, hn1]
    norm_num
  have hr : h_recall_score ytC8 ypC8 gC8 = some (1 / 2) := by
    rw [h_recall_eq h1 h2, hb, hn2]
    norm_num
  exact fbeta_formula ytC8 ypC8 gC8 1 1 (1 / 2) hp hr (by norm_num)

/-- C10. Swap duality: whenever `h_precision_score a b g` returns a value, it
equals `h_recall_score b a g` — the true-positive numerator is symmetric in
the two filled matrices and the denominator of each is the nonzero count of
the filled second argument of precision, i.e. the filled first argument of
recall. -/
theorem swap_duality (a b : Mat) (g : DiGraph) (p : ℚ)
    (h : h_precision_score a b g = some p) : h_recall_score b a g = some p := by
  rw [← h_swap a b g]
  exact h

/-- Witness for C10 on the ancestor-credit instance. -/
theorem swap_duality_witness : h_recall_score ypC8 ytC8 gC8 = some 1 := by
  have h1 : fill_ancestors ytC8 gC8 true = some [[1, 1]] := by decide
  have h2 : fill_ancestors ypC8 gC8 true = some [[1, 0]] := by decide
  have hb : countBoth [[1, 1]] [[1, 0]] = 1 := by decide
  have hn1 : countNonzero [[1, 0]] = 1 := by decide
  have hp : h_precision_score ytC8 ypC8 gC8 = some 1 := by
    rw [h_precision_eq h1 h2, hb, hn1]
    norm_num
  exact swap_duality ytC8 ypC8 gC8 1 hp

end HC
